import Mathlib

/-!
Verification of the resource-estimation notebook `compare.ipynb`.

The notebook's own code is embedded shallowly below:

* `preprocess_hamiltonian` — the notebook's conversion from an openfermion
  `QubitOperator` to a `cirq.PauliSum`, including the string key
  (`"Z60 X61"`) each kept term is serialized to and re-parsed from;
* `cirq_pauli_sum_to_qiskit_pauli_op` — the notebook's conversion from a
  `cirq.PauliSum` to a qiskit `SparsePauliOp`;
* the shot-count loop (`all_shots`) and the Trotter-step-count formula
  (`nsteps`);
* a step/estimate model of the notebook's cell structure for the
  document-level claims.

Machine floats are modelled by exact rationals; third-party library calls
(openfermion's string parsing, cirq's `PauliSum` addition, qiskit/scipy
routines) are modelled by explicit Lean functions mirroring their documented
behaviour on the values the notebook feeds them.
-/

/-- A Pauli letter, as in an openfermion `QubitOperator` term or a cirq
`PauliString` factor. -/
inductive Pauli where
  | X
  | Y
  | Z
deriving DecidableEq, Repr

/-- An openfermion `QubitOperator` term key: a tuple of
`(qubit_index, pauli_letter)` factors.  In openfermion the tuple is sorted by
strictly increasing qubit index; that invariant is carried as a hypothesis
(`OFTermSorted`) where needed. -/
abbrev OFTerm := List (Nat × Pauli)

/-- The openfermion invariant on a term key: factor qubit indices are strictly
increasing (in particular pairwise distinct). -/
def OFTermSorted (t : OFTerm) : Prop := t.Pairwise (fun a b => a.1 < b.1)

instance (t : OFTerm) : Decidable (OFTermSorted t) := by
  unfold OFTermSorted; infer_instance

/-- A complex coefficient with exact rational real and imaginary parts
(modelling the Python `complex` coefficients of `QubitOperator` /
`PauliString`). -/
structure QComplex where
  re : ℚ
  im : ℚ
deriving DecidableEq, Repr

/-- Coefficient addition, used when `cirq.PauliSum` merges equal Pauli
strings. -/
def QComplex.add (a b : QComplex) : QComplex := ⟨a.re + b.re, a.im + b.im⟩

/-- An openfermion `QubitOperator`: its `terms` dict as an insertion-ordered
association list from term keys to coefficients (Python dicts preserve
insertion order; key uniqueness is carried as a hypothesis where needed). -/
abbrev QubitOp := List (OFTerm × QComplex)

/-- `hamiltonian.terms.get(term)`: first-match lookup in the terms dict. -/
def termsGet (h : QubitOp) (t : OFTerm) : Option QComplex :=
  match h with
  | [] => none
  | (t2, c) :: rest => if t2 = t then some c else termsGet rest t

/-- The character of a Pauli letter as used in openfermion term strings
(`"X" / "Y" / "Z"`). -/
def pauliChar : Pauli → Char
  | .X => 'X'
  | .Y => 'Y'
  | .Z => 'Z'

/-- The decimal digit character of `d` (meaningful for `d < 10`), modelling
Python's `str(index)` one digit at a time. -/
def digitChar (d : Nat) : Char := Char.ofNat (48 + d)

/-- Python's `str(n)` for a natural number, as a list of characters. -/
def natChars (n : Nat) : List Char :=
  if h : n < 10 then [digitChar n]
  else natChars (n / 10) ++ [digitChar (n % 10)]
decreasing_by
  exact Nat.div_lt_self (by omega) (by omega)

/-- Decode a decimal digit character, as openfermion's term-string parsing
does; `none` on a non-digit. -/
def charDigit? (c : Char) : Option Nat :=
  if '0' ≤ c ∧ c ≤ '9' then some (c.toNat - 48) else none

/-- Left-to-right accumulation of decimal digits (`none` on a non-digit). -/
def digitsToNatAux : List Char → Nat → Option Nat
  | [], acc => some acc
  | c :: cs, acc =>
    match charDigit? c with
    | some d => digitsToNatAux cs (acc * 10 + d)
    | none => none

/-- Parse a nonempty all-digit character list as a natural number. -/
def digitsToNat : List Char → Option Nat
  | [] => none
  | l => digitsToNatAux l 0

theorem digitsToNatAux_append (xs ys : List Char) (a v : Nat)
    (hxs : digitsToNatAux xs a = some v) :
    digitsToNatAux (xs ++ ys) a = digitsToNatAux ys v := by
  induction xs generalizing a with
  | nil => simp [digitsToNatAux] at hxs; simp [hxs]
  | cons c cs ih =>
    simp only [digitsToNatAux, List.cons_append] at hxs ⊢
    cases hcd : charDigit? c with
    | none => simp [hcd] at hxs
    | some d => simp [hcd] at hxs ⊢; exact ih _ hxs

theorem charDigit?_digitChar (d : Nat) (hd : d < 10) :
    charDigit? (digitChar d) = some d := by
  interval_cases d <;> decide

theorem natChars_ne_nil (n : Nat) : natChars n ≠ [] := by
  unfold natChars
  split <;> simp

theorem digitsToNatAux_natChars (n : Nat) :
    ∀ a : Nat, digitsToNatAux (natChars n) a = some (a * 10 ^ (natChars n).length + n) := by
  induction n using Nat.strong_induction_on with
  | _ n ih =>
    intro a
    unfold natChars
    split
    · rename_i h
      simp [digitsToNatAux, charDigit?_digitChar n h]
    · rename_i h
      rw [digitsToNatAux_append _ _ _ _ (ih (n / 10) (Nat.div_lt_self (by omega) (by omega)) a)]
      simp [digitsToNatAux, charDigit?_digitChar (n % 10) (Nat.mod_lt _ (by omega))]
      rw [pow_succ, ← mul_assoc]
      set M := a * 10 ^ (natChars (n / 10)).length with hM
      omega

theorem digitsToNat_natChars (n : Nat) : digitsToNat (natChars n) = some n := by
  have hne := natChars_ne_nil n
  unfold digitsToNat
  split
  · exact absurd (by assumption) hne
  · simpa using digitsToNatAux_natChars n 0

theorem natChars_all_digits (n : Nat) :
    ∀ c ∈ natChars n, (charDigit? c).isSome := by
  induction n using Nat.strong_induction_on with
  | _ n ih =>
    intro c hc
    unfold natChars at hc
    split at hc
    · rename_i h
      simp at hc
      subst hc
      simp [charDigit?_digitChar n h]
    · rename_i h
      rw [List.mem_append] at hc
      rcases hc with hc | hc
      · exact ih (n / 10) (Nat.div_lt_self (by omega) (by omega)) c hc
      · simp at hc
        subst hc
        simp [charDigit?_digitChar (n % 10) (Nat.mod_lt _ (by omega))]

theorem natChars_no_space (n : Nat) : ∀ c ∈ natChars n, c ≠ ' ' := by
  intro c hc
  have := natChars_all_digits n c hc
  intro hsp
  subst hsp
  simp [charDigit?] at this

/-- Python's `" ".join(tokens)`: the tokens separated by single spaces. -/
def joinSpace : List (List Char) → List Char
  | [] => []
  | [t] => t
  | t :: rest => t ++ ' ' :: joinSpace rest

/-- Splitting a character list at every space, keeping empty pieces — the
tokenization openfermion's `QubitOperator` string constructor applies to the
term string.  `splitSpace []` is `[[]]`, matching Python `"".split(" ")`. -/
def splitSpace : List Char → List (List Char)
  | [] => [[]]
  | c :: cs =>
    if c = ' ' then [] :: splitSpace cs
    else
      match splitSpace cs with
      | t :: ts => (c :: t) :: ts
      | [] => [[c]]

theorem splitSpace_ne_nil (cs : List Char) : splitSpace cs ≠ [] := by
  induction cs with
  | nil => simp [splitSpace]
  | cons c cs ih =>
    simp only [splitSpace]
    split
    · simp
    · split <;> simp

theorem splitSpace_space (cs : List Char) :
    splitSpace (' ' :: cs) = [] :: splitSpace cs := by
  simp [splitSpace]

theorem splitSpace_append_token (t : List Char) (rest : List Char)
    (ht : ∀ c ∈ t, c ≠ ' ') :
    splitSpace (t ++ rest) =
      match splitSpace rest with
      | r :: rs => (t ++ r) :: rs
      | [] => [t] := by
  induction t with
  | nil =>
    simp only [List.nil_append]
    cases h : splitSpace rest with
    | nil => exact absurd h (splitSpace_ne_nil rest)
    | cons r rs => simp
  | cons c cs ih =>
    have hc : c ≠ ' ' := ht c (by simp)
    have hcs : ∀ x ∈ cs, x ≠ ' ' := fun x hx => ht x (by simp [hx])
    simp only [List.cons_append, splitSpace, if_neg hc, List.append_eq]
    rw [ih hcs]
    cases h : splitSpace rest with
    | nil => exact absurd h (splitSpace_ne_nil rest)
    | cons r rs => simp

theorem splitSpace_joinSpace (toks : List (List Char))
    (htoks : ∀ t ∈ toks, t ≠ [] ∧ ∀ c ∈ t, c ≠ ' ') :
    toks ≠ [] → splitSpace (joinSpace toks) = toks := by
  induction toks with
  | nil => intro h; exact absurd rfl h
  | cons t rest ih =>
    intro _
    cases rest with
    | nil =>
      have ht := htoks t (by simp)
      show splitSpace (joinSpace [t]) = [t]
      rw [show joinSpace [t] = t from rfl]
      rw [show (t : List Char) = t ++ [] by simp]
      rw [splitSpace_append_token t [] ht.2]
      simp [splitSpace]
    | cons t2 rest2 =>
      have ht := htoks t (by simp)
      have hrest : ∀ x ∈ t2 :: rest2, x ≠ [] ∧ ∀ c ∈ x, c ≠ ' ' :=
        fun x hx => htoks x (by simp [hx])
      rw [show joinSpace (t :: t2 :: rest2) = t ++ ' ' :: joinSpace (t2 :: rest2) from rfl]
      rw [splitSpace_append_token t _ ht.2]
      rw [splitSpace_space, ih hrest (by simp)]
      simp

/-- One serialized factor, e.g. `"Z60"`: the notebook's
`pauli + str(index)`. -/
def factorChars (f : Nat × Pauli) : List Char := pauliChar f.2 :: natChars f.1

/-- The string key the notebook builds for a term:
`" ".join(pauli + str(index) for index, pauli in term)`. -/
def termKey (t : OFTerm) : List Char := joinSpace (t.map factorChars)

/-- Decode a Pauli action character, as openfermion's term-string parsing
does. -/
def charPauli? (c : Char) : Option Pauli :=
  if c = 'X' then some .X
  else if c = 'Y' then some .Y
  else if c = 'Z' then some .Z
  else none

/-- Parse one factor token `"<letter><digits>"` back into a
`(qubit_index, pauli_letter)` pair; `none` on a malformed token. -/
def parseFactor (cs : List Char) : Option (Nat × Pauli) :=
  match cs with
  | [] => none
  | c :: rest => do
    let p ← charPauli? c
    let n ← digitsToNat rest
    pure (n, p)

/-- Insert into a list sorted by ascending key `f`. -/
def insertAsc (f : α → Nat) (x : α) : List α → List α
  | [] => [x]
  | y :: ys => if f x ≤ f y then x :: y :: ys else y :: insertAsc f x ys

/-- Insertion sort by ascending key `f`, modelling openfermion's sorting of a
term's factors by qubit index. -/
def sortAsc (f : α → Nat) : List α → List α
  | [] => []
  | x :: xs => insertAsc f x (sortAsc f xs)

theorem sortAsc_of_pairwise_lt (f : α → Nat) (l : List α)
    (hl : l.Pairwise (fun a b => f a < f b)) : sortAsc f l = l := by
  induction l with
  | nil => rfl
  | cons x xs ih =>
    rw [List.pairwise_cons] at hl
    rw [sortAsc, ih hl.2]
    cases xs with
    | nil => rfl
    | cons y ys =>
      have : f x ≤ f y := Nat.le_of_lt (hl.1 y (by simp))
      simp [insertAsc, this]

/-- Model of `of.QubitOperator(key, coeff)` followed by
`of.transforms.qubit_operator_to_pauli_sum` and `next(iter(...))`: parse the
space-separated factor tokens, sort them by qubit index, and return the
resulting Pauli string (the empty key yields the identity string).  `none`
models a parse error. -/
def parseKey (cs : List Char) : Option OFTerm :=
  match cs with
  | [] => some []
  | _ => do
    let fs ← (splitSpace cs).mapM parseFactor
    pure (sortAsc Prod.fst fs)

theorem parseFactor_factorChars (f : Nat × Pauli) :
    parseFactor (factorChars f) = some f := by
  obtain ⟨n, p⟩ := f
  have hp : charPauli? (pauliChar p) = some p := by cases p <;> rfl
  simp [factorChars, parseFactor, hp, digitsToNat_natChars]

theorem factorChars_ne_nil (f : Nat × Pauli) : factorChars f ≠ [] := by
  simp [factorChars]

theorem factorChars_no_space (f : Nat × Pauli) : ∀ c ∈ factorChars f, c ≠ ' ' := by
  intro c hc
  rcases List.mem_cons.mp hc with h | h
  · subst h; cases f.2 <;> simp [pauliChar]
  · exact natChars_no_space f.1 c h

/-- Round trip: parsing the key the notebook serializes a sorted term to
recovers exactly that term. -/
theorem parseKey_termKey (t : OFTerm) (ht : OFTermSorted t) :
    parseKey (termKey t) = some t := by
  cases t with
  | nil => rfl
  | cons f fs =>
    have hne : termKey (f :: fs) ≠ [] := by
      unfold termKey
      rw [List.map_cons]
      cases fs.map factorChars with
      | nil => simpa [joinSpace] using factorChars_ne_nil f
      | cons a l => simp [joinSpace]
    have hsplit : splitSpace (termKey (f :: fs)) = (f :: fs).map factorChars := by
      apply splitSpace_joinSpace
      · intro tok htok
        rw [List.mem_map] at htok
        obtain ⟨g, _, rfl⟩ := htok
        exact ⟨factorChars_ne_nil g, factorChars_no_space g⟩
      · simp
    have hmap : ((f :: fs).map factorChars).mapM parseFactor = some (f :: fs) := by
      induction (f :: fs) with
      | nil => rfl
      | cons g gs ihg =>
        rw [List.map_cons, List.mapM_cons, parseFactor_factorChars]
        simp only [Option.bind_eq_bind, Option.some_bind]
        rw [ihg]
        rfl
    unfold parseKey
    split
    · exact absurd (by assumption) hne
    · rw [hsplit, hmap]
      simp only [Option.bind_eq_bind, Option.some_bind]
      rw [sortAsc_of_pairwise_lt Prod.fst (f :: fs) ht]
      rfl

/-- A cirq `PauliSum`: an ordered list of Pauli strings, each a term (the
qubit/letter factors, qubits modelled by their `LineQubit` index) with a
coefficient. -/
abbrev PauliSum := List (OFTerm × QComplex)

/-- `cirq.PauliSum.__iadd__` with a single Pauli string: merge the
coefficient into an existing equal string, else append the string. -/
def psAdd : PauliSum → OFTerm × QComplex → PauliSum
  | [], p => [p]
  | q :: qs, p => if q.1 = p.1 then (q.1, q.2.add p.2) :: qs else q :: psAdd qs p

/-- The loop of `preprocess_hamiltonian`, iterating over the keys of the
`terms` dict: a term surviving every `drop_term_if` predicate is serialized
to its string key, re-parsed through `of.QubitOperator` /
`qubit_operator_to_pauli_sum` with the coefficient looked up by
`hamiltonian.terms.get(term)`, and added to the accumulating `PauliSum`;
`none` models an exception. -/
def preprocessGo (h : QubitOp) (dropIf : List (OFTerm → Bool)) :
    List OFTerm → PauliSum → Option PauliSum
  | [], acc => some acc
  | t :: rest, acc =>
    if dropIf.any (fun f => f t) then preprocessGo h dropIf rest acc
    else
      match termsGet h t, parseKey (termKey t) with
      | some c, some t2 => preprocessGo h dropIf rest (psAdd acc (t2, c))
      | _, _ => none

/-- The notebook's `preprocess_hamiltonian(hamiltonian, drop_term_if)`
(`drop_term_if=None` is replaced by the empty predicate list before the
loop, so passing `[]` models the default). -/
def preprocess_hamiltonian (h : QubitOp) (dropIf : List (OFTerm → Bool)) :
    Option PauliSum :=
  preprocessGo h dropIf (h.map Prod.fst) []

theorem termsGet_eq_of_nodup (h : QubitOp) (hnodup : (h.map Prod.fst).Nodup) :
    ∀ tc ∈ h, termsGet h tc.1 = some tc.2 := by
  induction h with
  | nil => intro tc htc; simp at htc
  | cons hd rest ih =>
    intro tc htc
    rw [List.map_cons, List.nodup_cons] at hnodup
    rcases List.mem_cons.mp htc with rfl | hmem
    · simp [termsGet]
    · have hne : hd.1 ≠ tc.1 := by
        intro heq
        exact hnodup.1 (heq ▸ List.mem_map.mpr ⟨tc, hmem, rfl⟩)
      simp only [termsGet, if_neg hne]
      exact ih hnodup.2 tc hmem

theorem psAdd_append (s : PauliSum) (p : OFTerm × QComplex)
    (hp : p.1 ∉ s.map Prod.fst) : psAdd s p = s ++ [p] := by
  induction s with
  | nil => rfl
  | cons q qs ih =>
    rw [List.map_cons] at hp
    have hne : q.1 ≠ p.1 := fun heq => hp (by simp [heq])
    simp only [psAdd, if_neg hne, List.cons_append]
    rw [ih (fun hmem => hp (by simp [hmem]))]

theorem preprocessGo_eq_filter (h : QubitOp) (dropIf : List (OFTerm → Bool))
    (l : List (OFTerm × QComplex)) (acc : PauliSum)
    (hsorted : ∀ tc ∈ l, OFTermSorted tc.1)
    (hget : ∀ tc ∈ l, termsGet h tc.1 = some tc.2)
    (hfresh : ∀ tc ∈ l, tc.1 ∉ acc.map Prod.fst)
    (hnodup : (l.map Prod.fst).Nodup) :
    preprocessGo h dropIf (l.map Prod.fst) acc =
      some (acc ++ l.filter (fun tc => !(dropIf.any (fun f => f tc.1)))) := by
  induction l generalizing acc with
  | nil => simp [preprocessGo]
  | cons tc rest ih =>
    obtain ⟨t, c⟩ := tc
    rw [List.map_cons, List.nodup_cons] at hnodup
    rw [List.map_cons]
    by_cases hdrop : dropIf.any (fun f => f t)
    · rw [show preprocessGo h dropIf (t :: rest.map Prod.fst) acc
          = preprocessGo h dropIf (rest.map Prod.fst) acc by
        simp [preprocessGo, hdrop]]
      rw [ih acc (fun x hx => hsorted x (by simp [hx]))
          (fun x hx => hget x (by simp [hx]))
          (fun x hx => hfresh x (by simp [hx])) hnodup.2]
      simp [List.filter_cons, hdrop]
    · have hgetc : termsGet h t = some c := hget (t, c) (by simp)
      have hparse : parseKey (termKey t) = some t :=
        parseKey_termKey t (hsorted (t, c) (by simp))
      have hstep : preprocessGo h dropIf (t :: rest.map Prod.fst) acc
          = preprocessGo h dropIf (rest.map Prod.fst) (psAdd acc (t, c)) := by
        simp [preprocessGo, hdrop, hgetc, hparse]
      rw [hstep, psAdd_append acc (t, c) (hfresh (t, c) (by simp))]
      have hfresh2 : ∀ x ∈ rest, x.1 ∉ (acc ++ [(t, c)]).map Prod.fst := by
        intro x hx hmem
        rw [List.map_append, List.mem_append] at hmem
        rcases hmem with hmem | hmem
        · exact hfresh x (by simp [hx]) hmem
        · simp at hmem
          exact hnodup.1 (hmem ▸ List.mem_map.mpr ⟨x, hx, rfl⟩)
      rw [ih (acc ++ [(t, c)]) (fun x hx => hsorted x (by simp [hx]))
          (fun x hx => hget x (by simp [hx])) hfresh2 hnodup.2]
      simp [List.filter_cons, hdrop]

theorem filter_drop_nil_length (h : QubitOp) (hnodup : (h.map Prod.fst).Nodup) :
    (h.filter (fun tc => !(decide (tc.1 = [])))).length =
      h.length - (if [] ∈ h.map Prod.fst then 1 else 0) := by
  induction h with
  | nil => simp
  | cons tc rest ih =>
    rw [List.map_cons, List.nodup_cons] at hnodup
    by_cases ht : tc.1 = []
    · have hnot : [] ∉ rest.map Prod.fst := ht ▸ hnodup.1
      rw [List.filter_cons_of_neg (by simp [ht]), ih hnodup.2]
      simp [ht, hnot]
    · rw [List.filter_cons_of_pos (by simp [ht]), List.length_cons, ih hnodup.2]
      have hcount : (if [] ∈ rest.map Prod.fst then 1 else 0) ≤ rest.length := by
        split
        · rename_i hmem
          rcases List.mem_map.mp hmem with ⟨x, hx, _⟩
          exact Nat.succ_le_of_lt (List.length_pos.mpr (List.ne_nil_of_mem hx))
        · exact Nat.zero_le _
      have hiff : (([] : OFTerm) ∈ (tc :: rest).map Prod.fst) ↔
          (([] : OFTerm) ∈ rest.map Prod.fst) := by
        rw [List.map_cons, List.mem_cons]
        constructor
        · rintro (heq | hmem)
          · exact absurd heq.symm ht
          · exact hmem
        · exact Or.inr
      simp only [List.length_cons]
      by_cases hm : ([] : OFTerm) ∈ rest.map Prod.fst
      · rw [if_pos hm] at hcount
        rw [if_pos hm, if_pos (hiff.mpr hm)]
        omega
      · rw [if_neg hm] at hcount
        rw [if_neg hm, if_neg (fun hmm => hm (hiff.mp hmm))]
        omega

/-- C1: for every `QubitOperator` `h` (a well-formed terms dict: sorted term
keys, no duplicate keys) and every predicate list `ps` passed as
`drop_term_if` (the empty list models the default `None`),
`preprocess_hamiltonian h ps` returns the `cirq.PauliSum` whose Pauli strings
are exactly the terms of `h` on which no predicate in `ps` returns true, in
order, each with the same factors and the same coefficient as in `h`. -/
theorem preprocess_hamiltonian_keeps_exactly_undropped_terms
    (h : QubitOp) (ps : List (OFTerm → Bool))
    (hsorted : ∀ tc ∈ h, OFTermSorted tc.1)
    (hnodup : (h.map Prod.fst).Nodup) :
    preprocess_hamiltonian h ps =
      some (h.filter (fun tc => !(ps.any (fun f => f tc.1)))) := by
  unfold preprocess_hamiltonian
  simpa using
    preprocessGo_eq_filter h ps h [] hsorted (termsGet_eq_of_nodup h hnodup)
      (by simp) hnodup

/-- Witness for C1 on a concrete three-term operator with one predicate. -/
theorem preprocess_hamiltonian_keeps_exactly_undropped_terms_witness :
    preprocess_hamiltonian
      [([(0, Pauli.X), (1, Pauli.Z)], ⟨5, 0⟩), ([], ⟨3, 0⟩), ([(2, Pauli.Y)], ⟨-1, 2⟩)]
      [fun t => decide (t = [])] =
      some [([(0, Pauli.X), (1, Pauli.Z)], ⟨5, 0⟩), ([(2, Pauli.Y)], ⟨-1, 2⟩)] :=
  (preprocess_hamiltonian_keeps_exactly_undropped_terms
      [([(0, Pauli.X), (1, Pauli.Z)], ⟨5, 0⟩), ([], ⟨3, 0⟩), ([(2, Pauli.Y)], ⟨-1, 2⟩)]
      [fun t => decide (t = [])] (by decide) (by decide)).trans (by decide)

/-- The predicate `lambda term: term == ()` the notebook passes as
`drop_term_if` at the call site that drops the identity. -/
def dropIdentityTerm : OFTerm → Bool := fun t => decide (t = [])

/-- C9: the notebook's call
`preprocess_hamiltonian(h, drop_term_if=[lambda term: term == ()])` on a
well-formed `h` returns a `PauliSum` with no identity string; its length is
the input's term count minus one when `h` contains the identity term and
equal to the input's term count otherwise. -/
theorem preprocess_drop_identity_spec (h : QubitOp)
    (hsorted : ∀ tc ∈ h, OFTermSorted tc.1)
    (hnodup : (h.map Prod.fst).Nodup) :
    ∃ s, preprocess_hamiltonian h [dropIdentityTerm] = some s ∧
      (∀ p ∈ s, p.1 ≠ []) ∧
      s.length = h.length - (if [] ∈ h.map Prod.fst then 1 else 0) := by
  refine ⟨h.filter (fun tc => !(dropIdentityTerm tc.1)), ?_, ?_, ?_⟩
  · unfold preprocess_hamiltonian
    have := preprocessGo_eq_filter h [dropIdentityTerm] h [] hsorted
      (termsGet_eq_of_nodup h hnodup) (by simp) hnodup
    simpa using this
  · intro p hp
    have := (List.mem_filter.mp hp).2
    simpa [dropIdentityTerm] using this
  · exact filter_drop_nil_length h hnodup

/-- Witness for C9: an operator holding the identity loses exactly one term,
and the result holds no identity string. -/
theorem preprocess_drop_identity_spec_witness :
    ∃ s, preprocess_hamiltonian
        [([], ⟨7, 0⟩), ([(1, Pauli.Z)], ⟨2, 0⟩)] [dropIdentityTerm] = some s ∧
      (∀ p ∈ s, p.1 ≠ []) ∧
      s.length = 1 := by
  obtain ⟨s, h1, h2, h3⟩ := preprocess_drop_identity_spec
    [([], ⟨7, 0⟩), ([(1, Pauli.Z)], ⟨2, 0⟩)] (by decide) (by decide)
  exact ⟨s, h1, h2, by rw [h3]; decide⟩

/-- `cirq.PauliSum.qubits`: the sorted distinct qubits appearing in the sum
(modelled on `LineQubit` indices, whose order is numeric). -/
def qubitsOf (s : PauliSum) : List Nat :=
  sortAsc id ((s.map (fun p => p.1.map Prod.fst)).flatten.dedup)

/-- The inner loop's character for one qubit of one Pauli string:
`"I"` when `qubit not in term`, else `cirq_pauli_to_str[term[qubit]]`. -/
def pauliLetter (t : OFTerm) (q : Nat) : Char :=
  match t.find? (fun f => decide (f.1 = q)) with
  | some f => pauliChar f.2
  | none => 'I'

/-- The string built for one term of the sum: one character per qubit of the
sum, in qubit order. -/
def rowString (qs : List Nat) (t : OFTerm) : List Char := qs.map (pauliLetter t)

/-- The tolerance of `np.isclose(term.coefficient.imag, 0.0, atol=1e-7)`:
with reference value `0.0` the relative part vanishes, leaving
`|imag| <= 1e-7`. -/
def imagTol : ℚ := 1 / 10000000

/-- The loop of `cirq_pauli_sum_to_qiskit_pauli_op`: build each term's
string, assert the coefficient is (near-)real, and record the real part;
`Except.error` models the `AssertionError`. -/
def convertGo (qs : List Nat) : PauliSum → List (List Char) → List ℚ →
    Except Unit (List (List Char) × List ℚ)
  | [], terms, coeffs => .ok (terms, coeffs)
  | p :: rest, terms, coeffs =>
    if |p.2.im| ≤ imagTol then
      convertGo qs rest (terms ++ [rowString qs p.1]) (coeffs ++ [p.2.re])
    else .error ()

/-- The notebook's `cirq_pauli_sum_to_qiskit_pauli_op(pauli_sum)`: the
returned pair models `SparsePauliOp(terms, coeffs)`. -/
def cirq_pauli_sum_to_qiskit_pauli_op (s : PauliSum) :
    Except Unit (List (List Char) × List ℚ) :=
  convertGo (qubitsOf s) s [] []

theorem convertGo_ok (qs : List Nat) (l : PauliSum)
    (terms : List (List Char)) (coeffs : List ℚ)
    (him : ∀ p ∈ l, |p.2.im| ≤ imagTol) :
    convertGo qs l terms coeffs =
      .ok (terms ++ l.map (fun p => rowString qs p.1),
           coeffs ++ l.map (fun p => p.2.re)) := by
  induction l generalizing terms coeffs with
  | nil => simp [convertGo]
  | cons p rest ih =>
    rw [convertGo, if_pos (him p (by simp))]
    rw [ih _ _ (fun x hx => him x (by simp [hx]))]
    simp

/-- The first entry of a `find?` hit in a Pauli string with distinct qubits
is the unique factor at that qubit. -/
theorem find?_factor_eq (t : OFTerm) (q : Nat) (pl : Pauli)
    (hmem : (q, pl) ∈ t) (hnodup : (t.map Prod.fst).Nodup) :
    t.find? (fun f => decide (f.1 = q)) = some (q, pl) := by
  induction t with
  | nil => simp at hmem
  | cons f rest ih =>
    rw [List.map_cons, List.nodup_cons] at hnodup
    rcases List.mem_cons.mp hmem with rfl | hmem2
    · simp [List.find?]
    · have hne : f.1 ≠ q := by
        intro heq
        exact hnodup.1 (heq ▸ List.mem_map.mpr ⟨(q, pl), hmem2, rfl⟩)
      rw [List.find?, decide_eq_false hne]
      exact ih hmem2 hnodup.2

theorem pauliLetter_of_mem (t : OFTerm) (q : Nat) (pl : Pauli)
    (hmem : (q, pl) ∈ t) (hnodup : (t.map Prod.fst).Nodup) :
    pauliLetter t q = pauliChar pl := by
  unfold pauliLetter
  rw [find?_factor_eq t q pl hmem hnodup]

theorem pauliLetter_of_not_mem (t : OFTerm) (q : Nat)
    (hq : q ∉ t.map Prod.fst) : pauliLetter t q = 'I' := by
  unfold pauliLetter
  have : t.find? (fun f => decide (f.1 = q)) = none := by
    rw [List.find?_eq_none]
    intro f hf
    simp only [decide_eq_true_eq]
    intro heq
    exact hq (List.mem_map.mpr ⟨f, hf, heq⟩)
  rw [this]

theorem rowString_get (qs : List Nat) (t : OFTerm) (j : Nat) (hj : j < qs.length) :
    (rowString qs t).get ⟨j, by simpa [rowString] using hj⟩ =
      pauliLetter t (qs.get ⟨j, hj⟩) := by
  simp [rowString]

/-- C2: on a `PauliSum` whose coefficients all have imaginary part within
`1e-7` of zero (and whose Pauli strings are well formed: distinct qubits per
string), `cirq_pauli_sum_to_qiskit_pauli_op` returns one Pauli string per
input term, in input order; each string is as long as the sum's qubit list,
its `j`-th character is `'I'` when the `j`-th qubit is absent from the term
and otherwise that qubit's Pauli letter, and each paired coefficient is the
real part of the term's coefficient. -/
theorem cirq_pauli_sum_to_qiskit_pauli_op_correct (s : PauliSum)
    (him : ∀ p ∈ s, |p.2.im| ≤ imagTol)
    (hterms : ∀ p ∈ s, (p.1.map Prod.fst).Nodup) :
    cirq_pauli_sum_to_qiskit_pauli_op s =
      .ok (s.map (fun p => rowString (qubitsOf s) p.1),
           s.map (fun p => p.2.re)) ∧
    (s.map (fun p => rowString (qubitsOf s) p.1)).length = s.length ∧
    (∀ p ∈ s, (rowString (qubitsOf s) p.1).length = (qubitsOf s).length ∧
      ∀ j, (hj : j < (qubitsOf s).length) →
        (((qubitsOf s).get ⟨j, hj⟩ ∉ p.1.map Prod.fst) →
          (rowString (qubitsOf s) p.1).get ⟨j, by simpa [rowString] using hj⟩ = 'I') ∧
        (∀ pl, ((qubitsOf s).get ⟨j, hj⟩, pl) ∈ p.1 →
          (rowString (qubitsOf s) p.1).get ⟨j, by simpa [rowString] using hj⟩ =
            pauliChar pl)) := by
  refine ⟨?_, by simp, ?_⟩
  · unfold cirq_pauli_sum_to_qiskit_pauli_op
    simpa using convertGo_ok (qubitsOf s) s [] [] him
  · intro p hp
    refine ⟨by simp [rowString], ?_⟩
    intro j hj
    constructor
    · intro habs
      rw [rowString_get (qubitsOf s) p.1 j hj]
      exact pauliLetter_of_not_mem _ _ habs
    · intro pl hmem
      rw [rowString_get (qubitsOf s) p.1 j hj]
      exact pauliLetter_of_mem _ _ pl hmem (hterms p hp)

/-- Witness for C2 on a concrete two-string sum. -/
theorem cirq_pauli_sum_to_qiskit_pauli_op_correct_witness :
    cirq_pauli_sum_to_qiskit_pauli_op
      [([(0, Pauli.X), (2, Pauli.Z)], ⟨5, 0⟩), ([(1, Pauli.Y)], ⟨-3, 0⟩)] =
      .ok ([['X', 'I', 'Z'], ['I', 'Y', 'I']], [5, -3]) :=
  ((cirq_pauli_sum_to_qiskit_pauli_op_correct
      [([(0, Pauli.X), (2, Pauli.Z)], ⟨5, 0⟩), ([(1, Pauli.Y)], ⟨-3, 0⟩)]
      (by norm_num [imagTol]) (by decide)).1).trans (by rfl)

/-- `True` exactly on the error outcome of the conversion. -/
def isErr : Except Unit (List (List Char) × List ℚ) → Bool
  | .error _ => true
  | .ok _ => false

theorem convertGo_err_iff (qs : List Nat) (l : PauliSum)
    (terms : List (List Char)) (coeffs : List ℚ) :
    isErr (convertGo qs l terms coeffs) = true ↔ ∃ p ∈ l, imagTol < |p.2.im| := by
  induction l generalizing terms coeffs with
  | nil => simp [convertGo, isErr]
  | cons p rest ih =>
    rw [convertGo]
    by_cases hp : |p.2.im| ≤ imagTol
    · rw [if_pos hp, ih]
      constructor
      · rintro ⟨x, hx, hgt⟩
        exact ⟨x, by simp [hx], hgt⟩
      · rintro ⟨x, hx, hgt⟩
        rcases List.mem_cons.mp hx with rfl | hx2
        · exact absurd hp (not_le.mpr hgt)
        · exact ⟨x, hx2, hgt⟩
    · rw [if_neg hp]
      simp only [isErr, true_iff]
      exact ⟨p, by simp, not_le.mp hp⟩

/-- C8: the conversion raises `AssertionError` if and only if some term's
coefficient has imaginary part farther than `1e-7` from zero; on a normal
return the coefficients recorded are exactly the real parts, so any
in-tolerance imaginary part is discarded. -/
theorem cirq_pauli_sum_to_qiskit_pauli_op_assert (s : PauliSum) :
    (isErr (cirq_pauli_sum_to_qiskit_pauli_op s) = true ↔
      ∃ p ∈ s, imagTol < |p.2.im|) ∧
    (∀ terms coeffs, cirq_pauli_sum_to_qiskit_pauli_op s = .ok (terms, coeffs) →
      coeffs = s.map (fun p => p.2.re)) := by
  constructor
  · exact convertGo_err_iff (qubitsOf s) s [] []
  · intro terms coeffs hok
    by_cases hall : ∀ p ∈ s, |p.2.im| ≤ imagTol
    · have := convertGo_ok (qubitsOf s) s [] [] hall
      unfold cirq_pauli_sum_to_qiskit_pauli_op at hok
      rw [this] at hok
      simpa using (congrArg (fun r => r.2) (Except.ok.inj hok)).symm
    · push_neg at hall
      obtain ⟨p, hp, hgt⟩ := hall
      have herr := (convertGo_err_iff (qubitsOf s) s [] []).mpr ⟨p, hp, hgt⟩
      unfold cirq_pauli_sum_to_qiskit_pauli_op at hok
      rw [hok] at herr
      simp [isErr] at herr

/-- Witness for C8: a coefficient with imaginary part `1 > 1e-7` trips the
assertion, and an in-tolerance sum returns the real parts. -/
theorem cirq_pauli_sum_to_qiskit_pauli_op_assert_witness :
    isErr (cirq_pauli_sum_to_qiskit_pauli_op [([(0, Pauli.X)], ⟨2, 1⟩)]) = true ∧
    (∀ terms coeffs,
      cirq_pauli_sum_to_qiskit_pauli_op [([(0, Pauli.X)], ⟨2, 0⟩)] = .ok (terms, coeffs) →
      coeffs = [2]) := by
  constructor
  · exact (cirq_pauli_sum_to_qiskit_pauli_op_assert [([(0, Pauli.X)], ⟨2, 1⟩)]).1.mpr
      ⟨([(0, Pauli.X)], ⟨2, 1⟩), by decide, by norm_num [imagTol]⟩
  · intro terms coeffs hok
    have := (cirq_pauli_sum_to_qiskit_pauli_op_assert [([(0, Pauli.X)], ⟨2, 0⟩)]).2
      terms coeffs hok
    rw [this]
    decide

/-- The state visible to the `preprocess_hamiltonian` loop: the input object
`hamiltonian` alongside the local accumulator `new`; `err` records a raised
exception. -/
structure PreprocessState where
  hamiltonian : QubitOp
  new : PauliSum
  err : Bool
deriving DecidableEq

/-- One iteration of the `preprocess_hamiltonian` loop as an explicit state
transformer: the body reads `hamiltonian` (for `terms.get`) and assigns only
the local `new`; nothing is ever written to the input operator. -/
def preprocessStep (dropIf : List (OFTerm → Bool)) (st : PreprocessState)
    (t : OFTerm) : PreprocessState :=
  if st.err then st
  else if dropIf.any (fun f => f t) then st
  else
    match termsGet st.hamiltonian t, parseKey (termKey t) with
    | some c, some t2 => { st with new := psAdd st.new (t2, c) }
    | _, _ => { st with err := true }

/-- `preprocess_hamiltonian` with the state threaded explicitly through the
loop over the input's term keys. -/
def preprocessRun (h : QubitOp) (dropIf : List (OFTerm → Bool)) :
    PreprocessState :=
  (h.map Prod.fst).foldl (preprocessStep dropIf) ⟨h, [], false⟩

/-- The state visible to the `cirq_pauli_sum_to_qiskit_pauli_op` loop: the
input `pauli_sum` alongside the local `terms` and `coeffs` lists. -/
structure ConvertState where
  pauli_sum : PauliSum
  terms : List (List Char)
  coeffs : List ℚ
  err : Bool
deriving DecidableEq

/-- One iteration of the conversion loop as an explicit state transformer:
the string is appended to `terms`, then the assertion runs, then the real
part is appended to `coeffs`; the input sum is only read. -/
def convertStep (qs : List Nat) (st : ConvertState) (p : OFTerm × QComplex) :
    ConvertState :=
  if st.err then st
  else
    let st2 := { st with terms := st.terms ++ [rowString qs p.1] }
    if |p.2.im| ≤ imagTol then { st2 with coeffs := st2.coeffs ++ [p.2.re] }
    else { st2 with err := true }

/-- `cirq_pauli_sum_to_qiskit_pauli_op` with the state threaded explicitly
through the loop over the sum's strings. -/
def convertRun (s : PauliSum) : ConvertState :=
  s.foldl (convertStep (qubitsOf s)) ⟨s, [], [], false⟩

theorem preprocessStep_hamiltonian (dropIf : List (OFTerm → Bool))
    (st : PreprocessState) (t : OFTerm) :
    (preprocessStep dropIf st t).hamiltonian = st.hamiltonian := by
  unfold preprocessStep
  split
  · rfl
  split
  · rfl
  split <;> rfl

theorem convertStep_pauli_sum (qs : List Nat) (st : ConvertState)
    (p : OFTerm × QComplex) :
    (convertStep qs st p).pauli_sum = st.pauli_sum := by
  unfold convertStep
  split
  · rfl
  split <;> rfl

/-- C10: neither function mutates its input: after the `preprocess_hamiltonian`
loop the `hamiltonian` object still holds exactly its original terms and
coefficients, and after the conversion loop the `pauli_sum` object is
likewise unchanged. -/
theorem inputs_left_unchanged (h : QubitOp) (dropIf : List (OFTerm → Bool))
    (s : PauliSum) :
    (preprocessRun h dropIf).hamiltonian = h ∧ (convertRun s).pauli_sum = s := by
  constructor
  · unfold preprocessRun
    have hgen : ∀ (l : List OFTerm) (st : PreprocessState),
        (l.foldl (preprocessStep dropIf) st).hamiltonian = st.hamiltonian := by
      intro l
      induction l with
      | nil => intro st; rfl
      | cons t rest ih =>
        intro st
        rw [List.foldl_cons, ih, preprocessStep_hamiltonian]
    exact hgen (h.map Prod.fst) ⟨h, [], false⟩
  · unfold convertRun
    have hgen : ∀ (l : PauliSum) (st : ConvertState),
        (l.foldl (convertStep (qubitsOf s)) st).pauli_sum = st.pauli_sum := by
      intro l
      induction l with
      | nil => intro st; rfl
      | cons p rest ih =>
        intro st
        rw [List.foldl_cons, ih, convertStep_pauli_sum]
    exact hgen s ⟨s, [], [], false⟩

/-- The accuracy targets of the shots cell: `epsilons = [0.1, 0.01, 0.001]`. -/
def epsilons : List ℚ := [1/10, 1/100, 1/1000]

/-- `kvals = [1, 2, nqubits // 2, nqubits]`. -/
def kvals (nqubits : Nat) : List Nat := [1, 2, nqubits / 2, nqubits]

/-- The notebook's shot-count loop.  For each `k`, `base_shots` is one call
`kcommute.compute_shots(groups_of, evec, epsilon=1)` on the `k`-commuting
grouping — an external routine whose value only depends on `k` here, modelled
by the abstract `baseShots`; the recorded row is
`[base_shots / epsilon ** 2 for epsilon in epsilons]`. -/
def all_shots (baseShots : Nat → ℚ) (nqubits : Nat) : List (List ℚ) :=
  (kvals nqubits).map (fun k => epsilons.map (fun e => baseShots k / e ^ 2))

/-- C4: every entry of `all_shots` equals the `epsilon = 1` base shot count
of its `k` divided by `epsilon` squared, i.e. the recorded shot counts scale
exactly as the inverse square of the target accuracy. -/
theorem all_shots_inverse_square (baseShots : Nat → ℚ) (nqubits i j : Nat)
    (hi : i < (kvals nqubits).length) (hj : j < epsilons.length) :
    ((all_shots baseShots nqubits).getD i []).getD j 0 =
      baseShots ((kvals nqubits).getD i 0) / (epsilons.getD j 0) ^ 2 ∧
    ((all_shots baseShots nqubits).getD i []).getD j 0 * (epsilons.getD j 0) ^ 2 =
      baseShots ((kvals nqubits).getD i 0) := by
  have hi4 : i < 4 := by simpa [kvals] using hi
  have hj3 : j < 3 := by simpa [epsilons] using hj
  have heps : (epsilons.getD j 0) ≠ 0 := by
    interval_cases j <;> norm_num [epsilons]
  constructor
  · interval_cases i <;> interval_cases j <;> simp [all_shots, kvals, epsilons]
  · have h1 : ((all_shots baseShots nqubits).getD i []).getD j 0 =
        baseShots ((kvals nqubits).getD i 0) / (epsilons.getD j 0) ^ 2 := by
      interval_cases i <;> interval_cases j <;> simp [all_shots, kvals, epsilons]
    rw [h1, div_mul_cancel₀]
    exact pow_ne_zero 2 heps

/-- Witness for C4: with a base count of `7` shots at `k = 31` (row `i = 2`)
and accuracy `0.01` (column `j = 1`), the recorded count is `70000`. -/
theorem all_shots_inverse_square_witness :
    ((all_shots (fun _ => 7) 62).getD 2 []).getD 1 0 = 70000 :=
  ((all_shots_inverse_square (fun _ => 7) 62 2 1 (by decide) (by decide)).1).trans
    (by norm_num [kvals, epsilons])

/-- Python's `round` on an exact value: round half to even. -/
def pyRound (q : ℚ) : ℤ :=
  let f := ⌊q⌋
  let r := q - (f : ℚ)
  if r < 1/2 then f
  else if (1 : ℚ)/2 < r then f + 1
  else if f % 2 = 0 then f else f + 1

/-- The target accuracy of the Trotter-step cell: `epsilon = 0.001`. -/
def epsilonChem : ℚ := 1/1000

/-- `error = np.sum(np.abs(H.coeffs))`: the loose Trotter error bound over
the coefficients of the qiskit Hamiltonian `H`. -/
def trotterErrorBound (coeffs : List ℚ) : ℚ := (coeffs.map (fun c => |c|)).sum

/-- `nsteps = round(error / epsilon)`. -/
def nsteps (coeffs : List ℚ) : ℤ := pyRound (trotterErrorBound coeffs / epsilonChem)

/-- C5: the reported number of Trotter steps equals `round(S / 0.001)` where
`S` sums the absolute values of all coefficients of the converted qubit
Hamiltonian `H` — equivalently `round(S * 1000)`. -/
theorem nsteps_eq_round_error_over_epsilon (s : PauliSum)
    (terms : List (List Char)) (coeffs : List ℚ)
    (hok : cirq_pauli_sum_to_qiskit_pauli_op s = .ok (terms, coeffs)) :
    nsteps coeffs = pyRound ((s.map (fun p => |p.2.re|)).sum / epsilonChem) ∧
    nsteps coeffs = pyRound ((s.map (fun p => |p.2.re|)).sum * 1000) := by
  have hco : coeffs = s.map (fun p => p.2.re) :=
    (cirq_pauli_sum_to_qiskit_pauli_op_assert s).2 terms coeffs hok
  have hsum : trotterErrorBound coeffs = (s.map (fun p => |p.2.re|)).sum := by
    rw [hco]
    unfold trotterErrorBound
    rw [List.map_map]
    rfl
  constructor
  · unfold nsteps
    rw [hsum]
  · unfold nsteps
    rw [hsum]
    have : (s.map (fun p => |p.2.re|)).sum / epsilonChem =
        (s.map (fun p => |p.2.re|)).sum * 1000 := by
      unfold epsilonChem
      field_simp
    rw [this]

theorem pyRound_intCast (n : ℤ) : pyRound ((n : ℚ)) = n := by
  unfold pyRound
  rw [Int.floor_intCast]
  norm_num

/-- Witness for C5: a two-term Hamiltonian with coefficient magnitudes
`3` and `1` needs `round(4 / 0.001) = 4000` Trotter steps. -/
theorem nsteps_eq_round_error_over_epsilon_witness :
    nsteps [3, 1] = 4000 := by
  have hok : cirq_pauli_sum_to_qiskit_pauli_op
      [([(0, Pauli.X)], ⟨3, 0⟩), ([(1, Pauli.Z)], ⟨1, 0⟩)] =
      .ok ([['X', 'I'], ['I', 'Z']], [3, 1]) := by
    unfold cirq_pauli_sum_to_qiskit_pauli_op
    rw [convertGo_ok _ _ [] [] (by norm_num [imagTol])]
    rfl
  have h := (nsteps_eq_round_error_over_epsilon _ _ _ hok).2
  rw [h]
  have habs : ((List.map (fun p => |p.2.re|)
      [([(0, Pauli.X)], (⟨3, 0⟩ : QComplex)), ([(1, Pauli.Z)], ⟨1, 0⟩)]).sum : ℚ) = 4 := by
    show |(3:ℚ)| + (|(1:ℚ)| + 0) = 4
    rw [abs_of_pos (show (0:ℚ) < 3 by norm_num), abs_of_pos (show (0:ℚ) < 1 by norm_num)]
    norm_num
  rw [habs, show ((4:ℚ) * 1000) = ((4000 : ℤ) : ℚ) by norm_num, pyRound_intCast]

/-- The three algorithms the notebook's opening cell lists. -/
inductive Alg where
  | VQE
  | Krylov
  | QPE
deriving DecidableEq, Fintype

/-- The kinds of resource estimate the notebook produces. -/
inductive EstimateKind where
  | gateCount
  | circuitDepth
  | shotCount
  | trotterStepCount
deriving DecidableEq, Fintype

/-- The (algorithm, estimate) pairs the notebook actually produces, one group
per printing cell, in document order:

* the Trotter-step cells print depth and gate counts of the time-evolution
  circuit, which the notebook uses "as a subroutine for quantum Krylov and
  phase estimation" — a gate-count and depth estimate for both of those
  algorithms;
* the `nsteps` cell counts Trotter steps for the same two algorithms;
* the VQE cells print depth and gate counts of the loaded VQE circuit;
* the shots cells compute "the number of shots needed to compute one energy
  (cost function)", the VQE cost; no Krylov- or QPE-specific shot count is
  computed anywhere. -/
def notebookEstimates : List (Alg × EstimateKind) :=
  [(.Krylov, .gateCount), (.Krylov, .circuitDepth),
   (.QPE, .gateCount), (.QPE, .circuitDepth),
   (.Krylov, .trotterStepCount), (.QPE, .trotterStepCount),
   (.VQE, .gateCount), (.VQE, .circuitDepth),
   (.VQE, .shotCount)]

/-- C3 fails as stated: it is not true that every one of the three
algorithms receives its own gate-count, circuit-depth and shot-count
estimate — Krylov and QPE receive no shot-count estimate. -/
theorem notebook_estimates_not_all_three_kinds :
    ¬ (∀ a : Alg, (a, EstimateKind.gateCount) ∈ notebookEstimates ∧
        (a, EstimateKind.circuitDepth) ∈ notebookEstimates ∧
        (a, EstimateKind.shotCount) ∈ notebookEstimates) := by
  decide

/-- C3 amended: each of the three algorithms receives a gate-count and a
circuit-depth estimate (for Krylov and QPE through the shared Trotter-step
circuit), but only VQE receives a shot-count estimate; Krylov and QPE get
none. -/
theorem notebook_estimates_amended :
    (∀ a : Alg, (a, EstimateKind.gateCount) ∈ notebookEstimates ∧
      (a, EstimateKind.circuitDepth) ∈ notebookEstimates) ∧
    (Alg.VQE, EstimateKind.shotCount) ∈ notebookEstimates ∧
    (Alg.Krylov, EstimateKind.shotCount) ∉ notebookEstimates ∧
    (Alg.QPE, EstimateKind.shotCount) ∉ notebookEstimates := by
  decide

/-- The notebook's top-level operations, one tag per code cell in document
order (markdown cells and commented-out cells omitted). -/
inductive NotebookStep where
  | importLibraries
  | buildMolecularHamiltonian
  | saveMolecule
  | loadMolecule
  | getMolecularHamiltonian
  | getFermionOperator
  | compressHamiltonian
  | jordanWignerTransform
  | countQubits
  | filterToPauliSum
  | showStatistics
  | convertToSparsePauliOp
  | buildTrotterCircuit
  | decomposeCircuit
  | transpileToBasisGates
  | transpileToDevice
  | compileWithTket
  | countTrotterSteps
  | loadVqeCircuit
  | sparseEigensolve
  | computeShotCounts
  | plotShotCounts
deriving DecidableEq

/-- The code cells of `compare.ipynb`, top to bottom. -/
def notebookSteps : List NotebookStep :=
  [.importLibraries,
   .buildMolecularHamiltonian,
   .saveMolecule,
   .loadMolecule,
   .getMolecularHamiltonian,
   .getFermionOperator,
   .compressHamiltonian,
   .jordanWignerTransform,
   .countQubits,
   .filterToPauliSum,
   .showStatistics,
   .convertToSparsePauliOp,
   .buildTrotterCircuit,
   .decomposeCircuit,
   .transpileToBasisGates,
   .transpileToDevice,
   .compileWithTket,
   .countTrotterSteps,
   .loadVqeCircuit,
   .sparseEigensolve,
   .computeShotCounts,
   .plotShotCounts]

/-- C6: run top to bottom, the notebook constructs the molecular
Hamiltonian, Jordan-Wigner transforms it, builds the first-order Trotter
time-evolution circuit, compiles it against gate-set and device constraints,
and then computes the statistical error and shot-count estimates — in that
order (an ordered subsequence of the cell list). -/
theorem notebook_steps_in_order :
    List.Sublist
      [NotebookStep.buildMolecularHamiltonian,
       NotebookStep.jordanWignerTransform,
       NotebookStep.buildTrotterCircuit,
       NotebookStep.transpileToBasisGates,
       NotebookStep.transpileToDevice,
       NotebookStep.sparseEigensolve,
       NotebookStep.computeShotCounts]
      notebookSteps := by
  decide

/-- Where a computation is implemented: in code authored in this repository
(the notebook itself) or in a named external package. -/
inductive Provider where
  | thisNotebook
  | openfermionpyscfPkg
  | openfermionPkg
  | cirqPkg
  | qiskitPkg
  | scipyPkg
  | kcommutePkg
  | pytketPkg
deriving DecidableEq, Fintype

/-- The nontrivial computations the spec enumerates. -/
inductive HeavyComputation where
  | molecularIntegrals
  | jordanWignerTransform
  | trotterSynthesis
  | transpilation
  | sparseEigensolving
  | kcommuteGrouping
  | shotEstimation
deriving DecidableEq, Fintype

/-- The package each nontrivial computation's call site resolves to in the
notebook: `run_pyscf` (openfermionpyscf), `of.jordan_wigner` (openfermion),
`PauliEvolutionGate` with `LieTrotter` (qiskit), `qiskit.transpile` (qiskit),
`scipy.sparse.linalg.eigsh` (scipy), `kcommute.get_si_sets` and
`kcommute.compute_shots` (the external `kcommute` module).  The only
functions defined in the notebook itself, `preprocess_hamiltonian` and
`cirq_pauli_sum_to_qiskit_pauli_op`, are representation conversions, not any
of these computations. -/
def computationProvider : HeavyComputation → Provider
  | .molecularIntegrals => .openfermionpyscfPkg
  | .jordanWignerTransform => .openfermionPkg
  | .trotterSynthesis => .qiskitPkg
  | .transpilation => .qiskitPkg
  | .sparseEigensolving => .scipyPkg
  | .kcommuteGrouping => .kcommutePkg
  | .shotEstimation => .kcommutePkg

/-- C7: every nontrivial computation is executed by a call into a
third-party package — none is implemented by code authored in this
repository — and in particular the k-commuting grouping routine resolves to
the external `kcommute` module. -/
theorem nontrivial_computations_external :
    (∀ c : HeavyComputation, computationProvider c ≠ Provider.thisNotebook) ∧
    computationProvider HeavyComputation.kcommuteGrouping = Provider.kcommutePkg := by
  decide

/-- Witness for the frame property on concrete inputs. -/
theorem inputs_left_unchanged_witness :
    (preprocessRun [([], ⟨1, 0⟩)] [fun t => decide (t = [])]).hamiltonian =
      [([], ⟨1, 0⟩)] ∧
    (convertRun [([(0, Pauli.X)], ⟨2, 3⟩)]).pauli_sum =
      [([(0, Pauli.X)], ⟨2, 3⟩)] :=
  inputs_left_unchanged [([], ⟨1, 0⟩)] [fun t => decide (t = [])]
    [([(0, Pauli.X)], ⟨2, 3⟩)]
